import Mathlib

/-!
# Verification of the maas-toolbox tier registry subsystem

A shallow embedding of the tier/group/service association subsystem of the
`maas-experiments` repository (Go), together with proofs of the specified
properties.

The embedding follows the Go source:
* `internal/models/validation.go` — the name validator;
* `internal/models` tier structures and `Tier.Validate`;
* `internal/service/tier.go` — tier CRUD and per-user tier resolution;
* `internal/storage` (the `storage` package) — ConfigMap-backed load/save and
  the LLMInferenceService tier-association operations.

External collaborators (the Kubernetes API, the YAML and JSON libraries) are
modelled: the config store and workload store as explicit state values, the
group-existence oracle as a function parameter, and the serialization
libraries as concrete encoder/decoder pairs over the document shapes the
program reads and writes.
-/

deriving instance DecidableEq for Except

namespace MaasToolbox

/-! ## Name validator (`internal/models/validation.go`) -/

/-- Character class `[a-z0-9]` of the kubernetes-name regex. -/
def isNameAlnum (c : Char) : Bool :=
  ('a' ≤ c && c ≤ 'z') || ('0' ≤ c && c ≤ '9')

/-- Character class `[a-z0-9\-:._]` (interior characters) of the regex. -/
def isNameMiddle (c : Char) : Bool :=
  isNameAlnum c || c = '-' || c = ':' || c = '.' || c = '_'

/-- The language of `[a-z0-9\-:._]*[a-z0-9]`: a non-empty suffix whose last
character is alphanumeric and whose other characters are interior characters.
The empty list corresponds to the `?`-group being absent. -/
def nameRegexTail : List Char → Bool
  | [] => true
  | [c] => isNameAlnum c
  | c :: rest => isNameMiddle c && nameRegexTail rest

/-- Model of `kubernetesNameRegex.MatchString`: the anchored regex
`^[a-z0-9]([a-z0-9\-:._]*[a-z0-9])?$` from `validation.go`. -/
def matchesKubernetesNameRegex (s : String) : Bool :=
  match s.data with
  | [] => false
  | c :: rest => isNameAlnum c && nameRegexTail rest

/-- Error kinds of the program, one constructor per `errors.New` value of
`internal/models/errors.go` (plus the storage/parse failure kinds that the
storage layer surfaces via wrapped errors). -/
inductive MError where
  | tierNameRequired
  | tierDescriptionRequired
  | tierLevelInvalid
  | tierNotFound
  | tierAlreadyExists
  | tierNameImmutable
  | groupRequired
  | groupAlreadyExists
  | groupNotFound
  | invalidKubernetesName
  | groupNotFoundInCluster
  | namespaceNotFound
  | llmServiceNotFound
  | tierNotFoundInAnn
  | namespaceRequired
  | nameRequired
  | tierNameRequiredAnn
  | userRequired
  | userNotFound
  | storageFailure
  | parseFailure
  deriving DecidableEq, Repr

/-- Model of `ValidateKubernetesName` from `validation.go`. Returns `none` on success and
the classified error otherwise. The Go function counts bytes for the length
check (`len(name)`), iterates runes for the uppercase check
(`unicode.IsUpper`), and then applies the regex. The uppercase check here is
the ASCII one: for a character outside ASCII, Go's `unicode.IsUpper` may
differ, but every non-ASCII character is rejected by the regex with the same
error value, so the composed validator agrees with the source on every
input. -/
def validateKubernetesName (name : String) : Option MError :=
  if name = "" then some .groupRequired
  else if name.utf8ByteSize > 253 then some .invalidKubernetesName
  else if name.data.any Char.isUpper then some .invalidKubernetesName
  else if ¬ matchesKubernetesNameRegex name then some .invalidKubernetesName
  else none

/-- Model of `ValidateGroupName` from `validation.go`: an alias for
`validateKubernetesName`. -/
def validateGroupName (groupName : String) : Option MError :=
  validateKubernetesName groupName

/-! ## Tier data model (`internal/models`) -/

/-- Model of `models.Tier`. `level` is `Int`, matching the Go `int` (the negative range
is significant: update uses a negative level as a "no change" sentinel). -/
structure Tier where
  name : String
  description : String
  level : Int
  groups : List String
  deriving DecidableEq, Repr

/-- Model of `models.TierConfig`: the persisted aggregate. -/
structure TierConfig where
  tiers : List Tier
  deriving DecidableEq, Repr

/-- Model of `models.UserTier`: the per-user view emitted by `GetTiersForUser`. -/
structure UserTier where
  name : String
  description : String
  level : Int
  groups : List String
  deriving DecidableEq, Repr

/-- First validation error of a list of group names, as produced by the
`for _, group := range t.Groups` loop of `Tier.Validate`. -/
def validateGroupNames : List String → Option MError
  | [] => none
  | g :: rest =>
    match validateGroupName g with
    | some e => some e
    | none => validateGroupNames rest

/-- Model of `Tier.Validate` from the models package: name non-empty, description
non-empty, level non-negative, and every group passes `ValidateGroupName`.
The tier name itself is not checked against the kubernetes-name grammar. -/
def Tier.validate (t : Tier) : Option MError :=
  if t.name = "" then some .tierNameRequired
  else if t.description = "" then some .tierDescriptionRequired
  else if t.level < 0 then some .tierLevelInvalid
  else validateGroupNames t.groups

/-- A non-empty character list has positive UTF-8 byte size. -/
theorem utf8ByteSize_go_pos (l : List Char) (h : l ≠ []) :
    1 ≤ String.utf8ByteSize.go l := by
  cases l with
  | nil => exact absurd rfl h
  | cons c cs =>
    have : String.utf8ByteSize.go (c :: cs) = String.utf8ByteSize.go cs + c.utf8Size := rfl
    have hpos := Char.utf8Size_pos c
    omega

/-- A string is non-empty iff its character list is non-empty. -/
theorem string_ne_empty_iff (s : String) : s ≠ "" ↔ s.data ≠ [] := by
  cases s with
  | mk data => simp [String.ext_iff]

/-- A non-empty string has UTF-8 byte size at least 1. -/
theorem utf8ByteSize_pos (s : String) (h : s ≠ "") : 1 ≤ s.utf8ByteSize := by
  have : s.utf8ByteSize = String.utf8ByteSize.go s.data := rfl
  rw [this]
  exact utf8ByteSize_go_pos s.data ((string_ne_empty_iff s).mp h)

/-- C3: `validate(name)` succeeds iff `name` has length 1 to 253 (UTF-8
bytes, as Go's `len`), contains no uppercase character, and matches the
grammar `[a-z0-9]([a-z0-9\-:._]*[a-z0-9])?`; the empty string yields the
distinct `groupRequired` (missing) error, and every other rejected string
yields `invalidKubernetesName` (invalid format).  The validator is a total
Lean function, hence pure and total. -/
theorem validateKubernetesName_spec (name : String) :
    (validateKubernetesName name = none ↔
      (1 ≤ name.utf8ByteSize ∧ name.utf8ByteSize ≤ 253 ∧
       (∀ c ∈ name.data, c.isUpper = false) ∧
       matchesKubernetesNameRegex name = true)) ∧
    (name = "" → validateKubernetesName name = some MError.groupRequired) ∧
    (name ≠ "" → validateKubernetesName name ≠ none →
      validateKubernetesName name = some MError.invalidKubernetesName) := by
  refine ⟨⟨?_, ?_⟩, ?_, ?_⟩
  · intro h
    unfold validateKubernetesName at h
    split_ifs at h with h0 h1 h2 h3
    have hne : 1 ≤ name.utf8ByteSize := utf8ByteSize_pos name h0
    refine ⟨hne, by omega, ?_, by simpa using h3⟩
    intro c hc
    by_contra hup
    have : name.data.any Char.isUpper = true :=
      List.any_eq_true.mpr ⟨c, hc, by simpa using hup⟩
    exact h2 this
  · rintro ⟨h1, h2, h3, h4⟩
    have h0 : name ≠ "" := by
      intro he
      rw [he] at h1
      simp [String.utf8ByteSize, String.utf8ByteSize.go] at h1
    have hup : name.data.any Char.isUpper = false := by
      by_contra hany
      obtain ⟨c, hc, hcu⟩ := List.any_eq_true.mp (by simpa using hany)
      exact absurd (h3 c hc) (by simp [hcu])
    unfold validateKubernetesName
    rw [if_neg h0, if_neg (by omega : ¬ name.utf8ByteSize > 253),
      if_neg (by simp [hup]), if_neg (by simp [h4])]
  · intro h0
    unfold validateKubernetesName
    simp [h0]
  · intro h0 hne
    unfold validateKubernetesName at hne ⊢
    rw [if_neg h0] at hne ⊢
    by_cases g1 : name.utf8ByteSize > 253
    · rw [if_pos g1]
    · rw [if_neg g1] at hne ⊢
      by_cases g2 : name.data.any Char.isUpper = true
      · rw [if_pos g2]
      · rw [if_neg g2] at hne ⊢
        by_cases g3 : ¬ matchesKubernetesNameRegex name = true
        · rw [if_pos g3]
        · rw [if_neg g3] at hne
          exact absurd rfl hne

/-- Witness for C3 at concrete inputs: a valid compound name, the empty
string, and a malformed non-empty string. -/
theorem validateKubernetesName_spec_witness :
    validateKubernetesName "system:authenticated" = none ∧
    validateKubernetesName "" = some MError.groupRequired ∧
    validateKubernetesName "-bad" = some MError.invalidKubernetesName :=
  ⟨(validateKubernetesName_spec "system:authenticated").1.mpr (by decide),
   (validateKubernetesName_spec "").2.1 rfl,
   (validateKubernetesName_spec "-bad").2.2 (by decide) (by decide)⟩

/-! ## Quoted scalars

The Go program stores tiers as YAML text (via `gopkg.in/yaml.v3`) and tier
annotations as JSON arrays of strings (via `encoding/json`).  Both libraries
are external to the repository; they are modelled by a concrete
encoder/decoder pair over the exact document shapes the program writes, with
every string scalar emitted in double-quoted form (escaping backslash, quote
and newline) so that encoding is injective for arbitrary field values. -/

/-- Escape one character of a quoted scalar. -/
def escapeChar (c : Char) : List Char :=
  if c = '\\' then ['\\', '\\']
  else if c = '"' then ['\\', '"']
  else if c = '\n' then ['\\', 'n']
  else [c]

/-- Escape a character list. -/
def escapeChars : List Char → List Char
  | [] => []
  | c :: cs => escapeChar c ++ escapeChars cs

/-- Invert a single escape code. -/
def unescapeChar (c : Char) : Option Char :=
  if c = '\\' then some '\\'
  else if c = '"' then some '"'
  else if c = 'n' then some '\n'
  else none

/-- Parse the body of a double-quoted scalar (the opening quote already
consumed), one character at a time; `esc` records a pending backslash.
Returns the unescaped content and the input following the closing quote. -/
def parseQuotedBody (esc : Bool) : List Char → Option (List Char × List Char)
  | [] => none
  | c :: cs =>
    if esc then
      match unescapeChar c with
      | none => none
      | some e => (parseQuotedBody false cs).map (fun p => (e :: p.1, p.2))
    else if c = '\\' then parseQuotedBody true cs
    else if c = '"' then some ([], cs)
    else (parseQuotedBody false cs).map (fun p => (c :: p.1, p.2))

/-- Parse a double-quoted scalar from the front of the input. -/
def parseQuoted (l : List Char) : Option (List Char × List Char) :=
  match l with
  | [] => none
  | c :: cs => if c = '"' then parseQuotedBody false cs else none

/-- Emit a double-quoted scalar. -/
def quoteChars (s : List Char) : List Char :=
  '"' :: (escapeChars s ++ ['"'])

/-- Decoding a quoted body returns the original content and tail. -/
theorem parseQuotedBody_escape (s rest : List Char) :
    parseQuotedBody false (escapeChars s ++ '"' :: rest) = some (s, rest) := by
  induction s with
  | nil =>
    simp [escapeChars, parseQuotedBody]
  | cons c cs ih =>
    by_cases hb : c = '\\'
    · subst hb
      simp [escapeChars, escapeChar, parseQuotedBody, unescapeChar, ih]
    · by_cases hq : c = '"'
      · subst hq
        simp [escapeChars, escapeChar, parseQuotedBody, unescapeChar, ih]
      · by_cases hn : c = '\n'
        · subst hn
          simp [escapeChars, escapeChar, parseQuotedBody, unescapeChar, ih]
        · simp [escapeChars, escapeChar, parseQuotedBody, hb, hq, hn, ih]

/-- Decoding a quoted scalar returns the original content and tail. -/
theorem parseQuoted_quoteChars (s rest : List Char) :
    parseQuoted (quoteChars s ++ rest) = some (s, rest) := by
  simp only [quoteChars, List.cons_append, List.append_assoc, List.singleton_append]
  simpa [parseQuoted] using parseQuotedBody_escape s rest

/-- A successful quoted-body parse consumes at least one character. -/
theorem parseQuotedBody_length (l : List Char) :
    ∀ (esc : Bool) (p : List Char × List Char),
      parseQuotedBody esc l = some p → p.2.length < l.length := by
  induction l with
  | nil => intro esc p h; simp [parseQuotedBody] at h
  | cons c cs ih =>
    intro esc p h
    simp only [parseQuotedBody] at h
    by_cases he : esc = true
    · rw [if_pos he] at h
      cases hu : unescapeChar c with
      | none => rw [hu] at h; exact absurd h (by simp)
      | some e =>
        rw [hu] at h
        simp only [Option.map_eq_some'] at h
        obtain ⟨q, hq, hqe⟩ := h
        have := ih false q hq
        have : p.2 = q.2 := by rw [← hqe]
        simp only [this]
        have := ih false q hq
        simp [List.length_cons]
        omega
    · rw [if_neg he] at h
      by_cases hb : c = '\\'
      · rw [if_pos hb] at h
        have := ih true p h
        simp [List.length_cons]
        omega
      · rw [if_neg hb] at h
        by_cases hc : c = '"'
        · rw [if_pos hc] at h
          have : p = ([], cs) := by injection h with h1; exact h1.symm
          simp [this]
        · rw [if_neg hc] at h
          simp only [Option.map_eq_some'] at h
          obtain ⟨q, hq, hqe⟩ := h
          have hl := ih false q hq
          have : p.2 = q.2 := by rw [← hqe]
          simp only [this, List.length_cons]
          omega

/-- A successful quoted-scalar parse consumes at least one character. -/
theorem parseQuoted_length (l : List Char) (p : List Char × List Char)
    (h : parseQuoted l = some p) : p.2.length < l.length := by
  cases l with
  | nil => simp [parseQuoted] at h
  | cons c cs =>
    by_cases hc : c = '"'
    · subst hc
      have h2 : parseQuotedBody false cs = some p := by simpa [parseQuoted] using h
      have := parseQuotedBody_length cs false p h2
      simp only [List.length_cons]
      omega
    · simp [parseQuoted, hc] at h

/-! ## Literal matching -/

/-- Consume an expected literal from the front of the input. -/
def dropLit : List Char → List Char → Option (List Char)
  | [], l => some l
  | _ :: _, [] => none
  | c :: p, d :: l => if d = c then dropLit p l else none

theorem dropLit_self (p rest : List Char) : dropLit p (p ++ rest) = some rest := by
  induction p with
  | nil => rfl
  | cons c cs ih => simp [dropLit, ih]

theorem dropLit_length (p : List Char) :
    ∀ l r, dropLit p l = some r → r.length + p.length = l.length := by
  induction p with
  | nil =>
    intro l r h
    simp [dropLit] at h
    simp [h]
  | cons c cs ih =>
    intro l r h
    cases l with
    | nil => simp [dropLit] at h
    | cons d l2 =>
      simp only [dropLit] at h
      by_cases hd : d = c
      · rw [if_pos hd] at h
        have := ih l2 r h
        simp [List.length_cons]
        omega
      · rw [if_neg hd] at h
        exact absurd h (by simp)

/-! ## Decimal numerals -/

/-- The ten decimal digit characters. -/
def digitChar (n : Nat) : Char :=
  match n with
  | 0 => '0' | 1 => '1' | 2 => '2' | 3 => '3' | 4 => '4'
  | 5 => '5' | 6 => '6' | 7 => '7' | 8 => '8' | _ => '9'

/-- Numeric value of a digit character. -/
def digitVal (c : Char) : Nat := c.toNat - 48

/-- Is `c` a decimal digit? -/
def isDigitChar (c : Char) : Bool := '0' ≤ c && c ≤ '9'

/-- Decimal representation, fuel-bounded so that evaluation is structural;
`fuel > n` always suffices since the argument shrinks when divided by 10. -/
def natCharsF : Nat → Nat → List Char
  | 0, _ => []
  | fuel + 1, n =>
    if n < 10 then [digitChar n]
    else natCharsF fuel (n / 10) ++ [digitChar (n % 10)]

/-- Decimal representation of a natural number, most significant digit
first. -/
def natChars (n : Nat) : List Char := natCharsF (n + 1) n

theorem natCharsF_fuel_irrel :
    ∀ (f1 : Nat) (n : Nat) (f2 : Nat), n + 1 ≤ f1 → n + 1 ≤ f2 →
      natCharsF f1 n = natCharsF f2 n := by
  intro f1
  induction f1 with
  | zero => intro n f2 h1 _; omega
  | succ f ih =>
    intro n f2 h1 h2
    match f2, h2 with
    | g + 1, h2 =>
      simp only [natCharsF]
      by_cases hn : n < 10
      · rw [if_pos hn, if_pos hn]
      · rw [if_neg hn, if_neg hn]
        have hd : n / 10 + 1 ≤ f := by
          have := Nat.div_lt_self (show 0 < n by omega) (show 1 < 10 by omega)
          omega
        have hd2 : n / 10 + 1 ≤ g := by
          have := Nat.div_lt_self (show 0 < n by omega) (show 1 < 10 by omega)
          omega
        rw [ih (n / 10) g hd hd2]

theorem natChars_eq (n : Nat) :
    natChars n = if n < 10 then [digitChar n]
      else natChars (n / 10) ++ [digitChar (n % 10)] := by
  show natCharsF (n + 1) n = _
  by_cases hn : n < 10
  · simp only [natCharsF, if_pos hn]
  · simp only [natCharsF, if_neg hn]
    rw [natCharsF_fuel_irrel n (n / 10) (n / 10 + 1)
      (by have := Nat.div_lt_self (show 0 < n by omega) (show 1 < 10 by omega); omega)
      (by omega)]
    rfl

/-- Value of a digit string. -/
def digitsVal (l : List Char) : Nat :=
  l.foldl (fun a c => 10 * a + digitVal c) 0

theorem digitVal_digitChar (n : Nat) (h : n < 10) : digitVal (digitChar n) = n := by
  interval_cases n <;> decide

theorem isDigitChar_digitChar (n : Nat) (h : n < 10) :
    isDigitChar (digitChar n) = true := by
  interval_cases n <;> decide

theorem natChars_digits (n : Nat) : ∀ c ∈ natChars n, isDigitChar c = true := by
  induction n using Nat.strong_induction_on with
  | _ n ih =>
    rw [natChars_eq]
    by_cases h : n < 10
    · simp only [if_pos h, List.mem_singleton]
      rintro c rfl
      exact isDigitChar_digitChar n h
    · simp only [if_neg h, List.mem_append, List.mem_singleton]
      rintro c (hc | rfl)
      · exact ih (n / 10) (Nat.div_lt_self (by omega) (by omega)) c hc
      · exact isDigitChar_digitChar (n % 10) (Nat.mod_lt n (by omega))

theorem natChars_ne_nil (n : Nat) : natChars n ≠ [] := by
  rw [natChars_eq]
  by_cases h : n < 10
  · simp [if_pos h]
  · simp [if_neg h]

theorem digitsVal_append_digit (l : List Char) (c : Char) :
    digitsVal (l ++ [c]) = 10 * digitsVal l + digitVal c := by
  simp [digitsVal, List.foldl_append]

theorem digitsVal_natChars (n : Nat) : digitsVal (natChars n) = n := by
  induction n using Nat.strong_induction_on with
  | _ n ih =>
    rw [natChars_eq]
    by_cases h : n < 10
    · simp only [if_pos h]
      simp [digitsVal, digitVal_digitChar n h]
    · simp only [if_neg h]
      rw [digitsVal_append_digit,
        ih (n / 10) (Nat.div_lt_self (by omega) (by omega)),
        digitVal_digitChar (n % 10) (Nat.mod_lt n (by omega))]
      omega

/-- Decimal representation of an integer (Go `int`). -/
def intChars (i : Int) : List Char :=
  if i < 0 then '-' :: natChars (-i).toNat else natChars i.toNat

/-- Parse an unsigned decimal numeral from the front of the input. -/
def parseNat (l : List Char) : Option (Nat × List Char) :=
  let ds := l.takeWhile isDigitChar
  if ds.isEmpty then none else some (digitsVal ds, l.dropWhile isDigitChar)

/-- Parse a possibly negative decimal numeral from the front of the input. -/
def parseInt (l : List Char) : Option (Int × List Char) :=
  match l with
  | [] => none
  | c :: cs =>
    if c = '-' then (parseNat cs).map (fun p => (-(p.1 : Int), p.2))
    else (parseNat l).map (fun p => ((p.1 : Int), p.2))

/-- A list does not begin with a character satisfying `p`. -/
def headNot (p : Char → Bool) : List Char → Prop
  | [] => True
  | c :: _ => p c = false

theorem takeWhile_append_all {p : Char → Bool} (xs : List Char) :
    ∀ ys, (∀ c ∈ xs, p c = true) → headNot p ys →
      (xs ++ ys).takeWhile p = xs ∧ (xs ++ ys).dropWhile p = ys := by
  induction xs with
  | nil =>
    intro ys _ hy
    cases ys with
    | nil => simp
    | cons c l =>
      simp only [headNot] at hy
      simp [List.takeWhile, List.dropWhile, hy]
  | cons x xs ih =>
    intro ys hx hy
    have hpx : p x = true := hx x (by simp)
    have := ih ys (fun c hc => hx c (by simp [hc])) hy
    simp [List.takeWhile, List.dropWhile, hpx, this.1, this.2]

theorem parseNat_natChars (n : Nat) (rest : List Char) (h : headNot isDigitChar rest) :
    parseNat (natChars n ++ rest) = some (n, rest) := by
  have hall := natChars_digits n
  have hsplit := takeWhile_append_all (natChars n) rest hall h
  simp only [parseNat, hsplit.1, hsplit.2]
  rw [if_neg (by simp [List.isEmpty_iff, natChars_ne_nil n])]
  rw [digitsVal_natChars]

theorem natChars_head_digit (n : Nat) :
    ∃ c cs, natChars n = c :: cs ∧ isDigitChar c = true := by
  cases hn : natChars n with
  | nil => exact absurd hn (natChars_ne_nil n)
  | cons c cs =>
    exact ⟨c, cs, rfl, natChars_digits n c (by rw [hn]; simp)⟩

theorem parseInt_intChars (i : Int) (rest : List Char) (h : headNot isDigitChar rest) :
    parseInt (intChars i ++ rest) = some (i, rest) := by
  unfold intChars
  by_cases hi : i < 0
  · rw [if_pos hi]
    simp only [List.cons_append, parseInt, if_pos rfl,
      parseNat_natChars _ rest h, Option.map_some']
    have h2 : ((-i).toNat : Int) = -i := Int.toNat_of_nonneg (by omega)
    simp [h2]
  · rw [if_neg hi]
    obtain ⟨c, cs, hc, hcd⟩ := natChars_head_digit i.toNat
    rw [hc]
    have hcne : c ≠ '-' := by
      intro he
      rw [he] at hcd
      exact absurd hcd (by decide)
    simp only [List.cons_append, parseInt, if_neg hcne]
    rw [← List.cons_append, ← hc, parseNat_natChars _ rest h]
    simp only [Option.map_some']
    congr 1
    rw [Prod.mk.injEq]
    exact ⟨by omega, rfl⟩

theorem dropWhile_length_le (p : Char → Bool) (l : List Char) :
    (l.dropWhile p).length ≤ l.length := by
  induction l with
  | nil => simp
  | cons c cs ih =>
    by_cases hc : p c
    · simp only [List.dropWhile, hc]
      simp only [List.length_cons]
      omega
    · simp [List.dropWhile, hc]

theorem parseNat_length (l : List Char) (p : Nat × List Char)
    (h : parseNat l = some p) : p.2.length ≤ l.length := by
  unfold parseNat at h
  by_cases he : (l.takeWhile isDigitChar).isEmpty
  · rw [if_pos he] at h; exact absurd h (by simp)
  · rw [if_neg he] at h
    injection h with h1
    rw [← h1]
    exact dropWhile_length_le isDigitChar l

theorem parseInt_length (l : List Char) (p : Int × List Char)
    (h : parseInt l = some p) : p.2.length ≤ l.length := by
  cases l with
  | nil => simp [parseInt] at h
  | cons c cs =>
    simp only [parseInt] at h
    by_cases hc : c = '-'
    · rw [if_pos hc] at h
      simp only [Option.map_eq_some'] at h
      obtain ⟨q, hq, hqe⟩ := h
      have := parseNat_length cs q hq
      have h2 : p.2 = q.2 := by rw [← hqe]
      rw [h2]
      simp only [List.length_cons]
      omega
    · rw [if_neg hc] at h
      simp only [Option.map_eq_some'] at h
      obtain ⟨q, hq, hqe⟩ := h
      have := parseNat_length (c :: cs) q hq
      have h2 : p.2 = q.2 := by rw [← hqe]
      rw [h2]
      exact this

/-- Rebuilding a string from its characters is the identity. -/
theorem string_mk_data (s : String) : String.mk s.data = s := by
  cases s with
  | mk d => rfl

/-! ## YAML tier document model

Model of the `gopkg.in/yaml.v3` encoding of a `[]models.Tier` value as
written by `Save` (after trimming the document separator and trailing
newline) and of its decoding as read by `Load`.  The document is a YAML
sequence of mappings with keys `name`, `description`, `level`, `groups`, in
insertion order; string scalars are emitted double-quoted.  An empty tier
list serializes as the flow sequence `[]`, matching the Go encoder. -/

/-- Literal `"- name: "`. -/
def litName : List Char := ['-', ' ', 'n', 'a', 'm', 'e', ':', ' ']

/-- Literal `"\n  description: "`. -/
def litDesc : List Char :=
  ['\n', ' ', ' ', 'd', 'e', 's', 'c', 'r', 'i', 'p', 't', 'i', 'o', 'n', ':', ' ']

/-- Literal `"\n  level: "`. -/
def litLevel : List Char := ['\n', ' ', ' ', 'l', 'e', 'v', 'e', 'l', ':', ' ']

/-- Literal `"\n  groups:"`. -/
def litGroupsKey : List Char := ['\n', ' ', ' ', 'g', 'r', 'o', 'u', 'p', 's', ':']

/-- Literal `" []"` (empty group list in flow style). -/
def litEmptyGroups : List Char := [' ', '[', ']']

/-- Literal `"\n  - "` (one group sequence item). -/
def litItem : List Char := ['\n', ' ', ' ', '-', ' ']

/-- Emit the sequence items of a non-empty group list. -/
def emitItems : List String → List Char
  | [] => []
  | g :: gs => litItem ++ (quoteChars g.data ++ emitItems gs)

/-- Emit a group list: `[]` in flow style when empty, block items
otherwise. -/
def emitGroups (gs : List String) : List Char :=
  if gs.isEmpty then litEmptyGroups else emitItems gs

/-- Emit one tier mapping. -/
def marshalTier (t : Tier) : List Char :=
  litName ++ (quoteChars t.name.data ++ (litDesc ++ (quoteChars t.description.data ++
    (litLevel ++ (intChars t.level ++ (litGroupsKey ++ emitGroups t.groups))))))

/-- Emit the remaining tiers, each preceded by a newline separator. -/
def marshalTiersRest : List Tier → List Char
  | [] => []
  | t :: ts => '\n' :: (marshalTier t ++ marshalTiersRest ts)

/-- Emit a tier list as document characters. -/
def marshalTiersChars : List Tier → List Char
  | [] => ['[', ']']
  | t :: ts => marshalTier t ++ marshalTiersRest ts

/-- The YAML text stored under the `tiers` key by `Save`. -/
def marshalTiers (ts : List Tier) : String := String.mk (marshalTiersChars ts)

/-- Parse consecutive group items; the fuel argument bounds recursion depth
and is instantiated with more than the input length by the wrapper. -/
def parseItemsF : Nat → List Char → Option (List String × List Char)
  | 0, _ => none
  | fuel + 1, l =>
    match dropLit litItem l with
    | none => some ([], l)
    | some l1 =>
      match parseQuoted l1 with
      | none => none
      | some p =>
        match parseItemsF fuel p.2 with
        | none => none
        | some q => some (String.mk p.1 :: q.1, q.2)

/-- Parse a group list: either the empty flow sequence or block items. -/
def parseGroups (l : List Char) : Option (List String × List Char) :=
  match dropLit litEmptyGroups l with
  | some r => some ([], r)
  | none => parseItemsF (l.length + 1) l

/-- Parse one tier mapping from the front of the input. -/
def parseOneTier (l : List Char) : Option (Tier × List Char) :=
  match dropLit litName l with
  | none => none
  | some l1 =>
    match parseQuoted l1 with
    | none => none
    | some (nm, l2) =>
      match dropLit litDesc l2 with
      | none => none
      | some l3 =>
        match parseQuoted l3 with
        | none => none
        | some (ds, l4) =>
          match dropLit litLevel l4 with
          | none => none
          | some l5 =>
            match parseInt l5 with
            | none => none
            | some (lv, l6) =>
              match dropLit litGroupsKey l6 with
              | none => none
              | some l7 =>
                match parseGroups l7 with
                | none => none
                | some (gs, l8) => some (⟨String.mk nm, String.mk ds, lv, gs⟩, l8)

/-- Parse a newline-separated sequence of tier mappings (fuel-bounded). -/
def parseTiersF : Nat → List Char → Option (List Tier)
  | 0, _ => none
  | fuel + 1, l =>
    match parseOneTier l with
    | none => none
    | some tr =>
      match tr.2 with
      | [] => some [tr.1]
      | c :: rest =>
        if c = '\n' then (parseTiersF fuel rest).map (tr.1 :: ·) else none

/-- Decode the YAML text read from the `tiers` key (model of
`yaml.Unmarshal` into `[]models.Tier`). -/
def unmarshalTiers (s : String) : Option (List Tier) :=
  parseTiersF (s.data.length + 1) s.data

/-- The tail following an emitted group list: either end of document or a
newline followed by the next tier mapping. -/
def tailOk (l : List Char) : Prop :=
  l = [] ∨ ∃ r, l = '\n' :: '-' :: r

theorem parseItemsF_emitItems (gs : List String) :
    ∀ (fuel : Nat) (rest : List Char), gs.length + 1 ≤ fuel → tailOk rest →
      parseItemsF fuel (emitItems gs ++ rest) = some (gs, rest) := by
  induction gs with
  | nil =>
    intro fuel rest hf ht
    match fuel, hf with
    | f + 1, _ =>
      simp only [emitItems, List.nil_append, parseItemsF]
      rcases ht with rfl | ⟨r, rfl⟩
      · rfl
      · simp [dropLit, litItem]
  | cons g gs2 ih =>
    intro fuel rest hf ht
    match fuel, hf with
    | f + 1, hf =>
      have hih := ih f rest (by simp at hf ⊢; omega) ht
      simp only [emitItems, List.append_assoc, parseItemsF,
        dropLit_self, parseQuoted_quoteChars, hih, string_mk_data]

theorem emitItems_length_ge (gs : List String) : gs.length ≤ (emitItems gs).length := by
  induction gs with
  | nil => simp [emitItems]
  | cons g gs2 ih =>
    simp only [emitItems, List.length_append, List.length_cons]
    have h5 : litItem.length = 5 := rfl
    have hq : 0 < (quoteChars g.data).length := by simp [quoteChars]
    omega

theorem parseGroups_emitGroups (gs : List String) (rest : List Char) (ht : tailOk rest) :
    parseGroups (emitGroups gs ++ rest) = some (gs, rest) := by
  cases gs with
  | nil =>
    have he : emitGroups [] = litEmptyGroups := by simp [emitGroups]
    rw [he]
    simp only [parseGroups, dropLit_self]
  | cons g gs2 =>
    have he : emitGroups (g :: gs2) = emitItems (g :: gs2) := by simp [emitGroups]
    rw [he]
    have hdrop : dropLit litEmptyGroups (emitItems (g :: gs2) ++ rest) = none := by
      simp [emitItems, litItem, litEmptyGroups, dropLit]
    simp only [parseGroups, hdrop]
    refine parseItemsF_emitItems (g :: gs2) _ rest ?_ ht
    have h1 := emitItems_length_ge (g :: gs2)
    simp only [List.length_append]
    omega

theorem headNot_litGroupsKey (X : List Char) : headNot isDigitChar (litGroupsKey ++ X) := by
  simp [litGroupsKey, headNot, isDigitChar]

theorem parseOneTier_marshalTier (t : Tier) (rest : List Char) (ht : tailOk rest) :
    parseOneTier (marshalTier t ++ rest) = some (t, rest) := by
  have hg : parseGroups (emitGroups t.groups ++ rest) = some (t.groups, rest) :=
    parseGroups_emitGroups t.groups rest ht
  have hint : parseInt (intChars t.level ++ (litGroupsKey ++ (emitGroups t.groups ++ rest)))
      = some (t.level, litGroupsKey ++ (emitGroups t.groups ++ rest)) :=
    parseInt_intChars t.level _ (headNot_litGroupsKey _)
  simp only [marshalTier, List.append_assoc]
  simp only [parseOneTier, dropLit_self, parseQuoted_quoteChars, hint, hg, string_mk_data]

theorem marshalTier_head (t : Tier) : ∃ r, marshalTier t = '-' :: r :=
  ⟨_, rfl⟩

theorem tailOk_marshalTiersRest (ts : List Tier) : tailOk (marshalTiersRest ts) := by
  cases ts with
  | nil => exact Or.inl rfl
  | cons t2 ts2 =>
    obtain ⟨r, hr⟩ := marshalTier_head t2
    exact Or.inr ⟨r ++ marshalTiersRest ts2, by simp [marshalTiersRest, hr]⟩

theorem parseTiersF_marshal :
    ∀ (fuel : Nat) (t : Tier) (ts : List Tier), ts.length + 1 ≤ fuel →
      parseTiersF fuel (marshalTier t ++ marshalTiersRest ts) = some (t :: ts) := by
  intro fuel
  induction fuel with
  | zero => intro t ts h; omega
  | succ f ih =>
    intro t ts h
    have hone := parseOneTier_marshalTier t (marshalTiersRest ts) (tailOk_marshalTiersRest ts)
    simp only [parseTiersF, hone]
    cases ts with
    | nil => simp [marshalTiersRest]
    | cons t2 ts2 =>
      simp only [marshalTiersRest]
      rw [ih t2 ts2 (by simp only [List.length_cons] at h ⊢; omega)]
      simp

theorem marshalTiersRest_length_ge (ts : List Tier) :
    ts.length ≤ (marshalTiersRest ts).length := by
  induction ts with
  | nil => simp [marshalTiersRest]
  | cons t ts2 ih =>
    simp only [marshalTiersRest, List.length_cons, List.length_append]
    omega

/-- Round trip of the YAML model: decoding an encoded non-empty tier list
returns exactly that list.  (The empty list encodes as `[]`, which `Load`
short-circuits before decoding.) -/
theorem unmarshalTiers_marshalTiers (t : Tier) (ts : List Tier) :
    unmarshalTiers (marshalTiers (t :: ts)) = some (t :: ts) := by
  show parseTiersF ((marshalTiersChars (t :: ts)).length + 1) (marshalTiersChars (t :: ts))
      = some (t :: ts)
  simp only [marshalTiersChars]
  refine parseTiersF_marshal _ t ts ?_
  have := marshalTiersRest_length_ge ts
  simp only [List.length_append]
  omega

theorem marshalTiers_ne_empty (t : Tier) (ts : List Tier) :
    marshalTiers (t :: ts) ≠ "" := by
  rw [string_ne_empty_iff]
  show marshalTiersChars (t :: ts) ≠ []
  obtain ⟨r, hr⟩ := marshalTier_head t
  simp [marshalTiersChars, hr]

theorem marshalTiers_ne_flowEmpty (t : Tier) (ts : List Tier) :
    marshalTiers (t :: ts) ≠ "[]" := by
  intro h
  have hd := congrArg String.data h
  have h2 : ("[]" : String).data = ['[', ']'] := rfl
  rw [h2] at hd
  obtain ⟨r, hr⟩ := marshalTier_head t
  have h3 : marshalTiersChars (t :: ts) = '-' :: (r ++ marshalTiersRest ts) := by
    simp [marshalTiersChars, hr]
  rw [show (marshalTiers (t :: ts)).data = marshalTiersChars (t :: ts) from rfl, h3] at hd
  injection hd with hd1
  exact absurd hd1 (by decide)

/-! ## ConfigMap-backed tier storage (`storage` package, `K8sTierStorage`) -/

/-- Association-list update, modelling Go map assignment `m[k] = v`. -/
def assocSet : List (String × String) → String → String → List (String × String)
  | [], k, v => [(k, v)]
  | (k0, v0) :: rest, k, v =>
    if k0 = k then (k, v) :: rest else (k0, v0) :: assocSet rest k v

/-- Association-list lookup, modelling Go map indexing `m[k]`. -/
def assocGet : List (String × String) → String → Option String
  | [], _ => none
  | (k0, v0) :: rest, k => if k0 = k then some v0 else assocGet rest k

theorem assocGet_assocSet (data : List (String × String)) (k v : String) :
    assocGet (assocSet data k v) k = some v := by
  induction data with
  | nil => simp [assocSet, assocGet]
  | cons p rest ih =>
    obtain ⟨k0, v0⟩ := p
    by_cases hk : k0 = k
    · simp [assocSet, assocGet, hk]
    · simp [assocSet, assocGet, hk, ih]

/-- State of the Kubernetes objects touched by `K8sTierStorage`: whether the
configured namespace exists, and the `data` field of the configured
ConfigMap (`none` when the ConfigMap does not exist).  The ConfigMap's
labels are not modelled; the program never reads them back. -/
structure K8sState where
  nsExists : Bool
  cm : Option (List (String × String))
  deriving DecidableEq, Repr

/-- Model of `K8sTierStorage.Load`: fail `ErrNamespaceNotFound` when the namespace
does not exist; return an empty config when the ConfigMap is absent, lacks
the `tiers` key, or that key holds `""` or `"[]"`; otherwise decode the
YAML. -/
def Load (s : K8sState) : Except MError TierConfig :=
  if ¬ s.nsExists then .error .namespaceNotFound
  else
    match s.cm with
    | none => .ok ⟨[]⟩
    | some data =>
      match assocGet data "tiers" with
      | none => .ok ⟨[]⟩
      | some v =>
        if v = "" ∨ v = "[]" then .ok ⟨[]⟩
        else
          match unmarshalTiers v with
          | none => .error .parseFailure
          | some ts => .ok ⟨ts⟩

/-- Model of `K8sTierStorage.Save`: fail `ErrNamespaceNotFound` when the namespace
does not exist; otherwise marshal the tier list and create the ConfigMap
with the `tiers` key, or update that key in the existing ConfigMap. -/
def Save (config : TierConfig) (s : K8sState) : Except MError K8sState :=
  if ¬ s.nsExists then .error .namespaceNotFound
  else
    match s.cm with
    | none => .ok { s with cm := some [("tiers", marshalTiers config.tiers)] }
    | some data => .ok { s with cm := some (assocSet data "tiers" (marshalTiers config.tiers)) }

/-- After a successful `Save`, `Load` returns exactly the saved config. -/
theorem load_after_save (config : TierConfig) (s s2 : K8sState)
    (hsave : Save config s = .ok s2) : Load s2 = .ok config := by
  unfold Save at hsave
  by_cases hns : s.nsExists = true
  · rw [if_neg (by simp [hns])] at hsave
    have key : ∀ data2, s2 = { s with cm := some data2 } →
        assocGet data2 "tiers" = some (marshalTiers config.tiers) → Load s2 = .ok config := by
      intro data2 hs2 hget
      unfold Load
      rw [hs2]
      rw [if_neg (by simp [hns])]
      simp only [hget]
      cases hc : config.tiers with
      | nil =>
        have hm : marshalTiers ([] : List Tier) = "[]" := by decide
        rw [hm, if_pos (Or.inr rfl)]
        cases config with
        | mk tiers => simp_all
      | cons t ts =>
        rw [if_neg (by
          rintro (he | he)
          · exact absurd he (marshalTiers_ne_empty t ts)
          · exact absurd he (marshalTiers_ne_flowEmpty t ts))]
        rw [unmarshalTiers_marshalTiers t ts]
        cases config with
        | mk tiers => simp_all
    cases hcm : s.cm with
    | none =>
      rw [hcm] at hsave
      have hs2 : s2 = { s with cm := some [("tiers", marshalTiers config.tiers)] } := by
        injection hsave with h1
        exact h1.symm
      exact key _ hs2 (by simp [assocGet])
    | some data =>
      rw [hcm] at hsave
      have hs2 : s2 = { s with cm := some (assocSet data "tiers" (marshalTiers config.tiers)) } := by
        injection hsave with h1
        exact h1.symm
      exact key _ hs2 (assocGet_assocSet data _ _)
  · rw [if_pos (by simp [hns])] at hsave
    exact absurd hsave (by simp)

/-- C6: saving a `TierConfig` and immediately loading yields an equal
ordered tier list — every tier's name, description, level and groups are
preserved in order, and an empty group list round-trips as an empty list
(the embedding's `List` has no null value, matching the never-null
guarantee). -/
theorem save_load_roundtrip (config : TierConfig) (s s2 : K8sState)
    (_hvalid : ∀ t ∈ config.tiers, t.validate = none)
    (hsave : Save config s = .ok s2) : Load s2 = .ok config :=
  load_after_save config s s2 hsave

/-- Witness for C6: a one-tier config saved into an empty store loads back
unchanged. -/
theorem save_load_roundtrip_witness :
    Load { nsExists := true,
           cm := some [("tiers",
             marshalTiers [⟨"free", "Free tier", 1, ["system:authenticated"]⟩])] }
      = .ok ⟨[⟨"free", "Free tier", 1, ["system:authenticated"]⟩]⟩ :=
  save_load_roundtrip ⟨[⟨"free", "Free tier", 1, ["system:authenticated"]⟩]⟩
    ⟨true, none⟩ _ (by decide) rfl

/-- C9: `Load` returns an empty `TierConfig`, not an error, when the
ConfigMap does not exist, lacks the `tiers` key, or that key is empty
(`""` or `"[]"`); and it fails with the namespace-not-found error when the
configured namespace does not exist. -/
theorem load_defaults (s : K8sState) :
    (s.nsExists = false → Load s = .error .namespaceNotFound) ∧
    (s.nsExists = true → s.cm = none → Load s = .ok ⟨[]⟩) ∧
    (∀ data, s.nsExists = true → s.cm = some data → assocGet data "tiers" = none →
      Load s = .ok ⟨[]⟩) ∧
    (∀ data v, s.nsExists = true → s.cm = some data → assocGet data "tiers" = some v →
      (v = "" ∨ v = "[]") → Load s = .ok ⟨[]⟩) := by
  refine ⟨?_, ?_, ?_, ?_⟩
  · intro h
    unfold Load
    rw [if_pos (by simp [h])]
  · intro hns hcm
    unfold Load
    rw [if_neg (by simp [hns]), hcm]
  · intro data hns hcm hget
    unfold Load
    rw [if_neg (by simp [hns]), hcm]
    simp only [hget]
  · intro data v hns hcm hget hv
    unfold Load
    rw [if_neg (by simp [hns]), hcm]
    simp only [hget]
    rw [if_pos hv]

/-- Witness for C9 at concrete states covering all four cases. -/
theorem load_defaults_witness :
    Load ⟨false, none⟩ = .error .namespaceNotFound ∧
    Load ⟨true, none⟩ = .ok ⟨[]⟩ ∧
    Load ⟨true, some [("other", "x")]⟩ = .ok ⟨[]⟩ ∧
    Load ⟨true, some [("tiers", "")]⟩ = .ok ⟨[]⟩ :=
  ⟨(load_defaults ⟨false, none⟩).1 rfl,
   (load_defaults ⟨true, none⟩).2.1 rfl rfl,
   (load_defaults ⟨true, some [("other", "x")]⟩).2.2.1 _ rfl rfl (by decide),
   (load_defaults ⟨true, some [("tiers", "")]⟩).2.2.2 _ "" rfl rfl (by decide) (Or.inl rfl)⟩

/-- A successful `Load` implies the namespace exists. -/
theorem load_ok_nsExists (s : K8sState) (c : TierConfig) (h : Load s = .ok c) :
    s.nsExists = true := by
  by_cases hns : s.nsExists = true
  · exact hns
  · unfold Load at h
    rw [if_pos (by simp [hns])] at h
    exact absurd h (by simp)

/-- Lemma: `Save` succeeds whenever the namespace exists. -/
theorem save_ok_of_ns (config : TierConfig) (s : K8sState) (h : s.nsExists = true) :
    ∃ s2, Save config s = .ok s2 := by
  unfold Save
  rw [if_neg (by simp [h])]
  cases s.cm with
  | none => exact ⟨_, rfl⟩
  | some data => exact ⟨_, rfl⟩

/-! ## Tier service (`internal/service/tier.go`) -/

/-- The constant `storage.SystemAuthenticatedGroup`: the built-in group that always
exists but is not returned by the API. -/
def systemAuthenticatedGroup : String := "system:authenticated"

/-- Model of `K8sTierStorage.GroupExists`: the well-known group short-circuits to
`true` without a remote call; any other name is resolved by the cluster,
modelled by the `oracle` parameter (`.error` models a failed remote
call). -/
def GroupExists (oracle : String → Except Unit Bool) (g : String) : Except Unit Bool :=
  if g = systemAuthenticatedGroup then .ok true else oracle g

/-- Model of `TierService.validateGroupsExist`: check each group in order, stopping
at the first remote failure (wrapped, modelled `storageFailure`) or missing
group (`groupNotFoundInCluster`). -/
def validateGroupsExist (oracle : String → Except Unit Bool) : List String → Option MError
  | [] => none
  | g :: rest =>
    match GroupExists oracle g with
    | .error _ => some .storageFailure
    | .ok false => some .groupNotFoundInCluster
    | .ok true => validateGroupsExist oracle rest

/-- Model of `TierService.CreateTier`: validate the tier, check group existence when
any groups are supplied, load the registry, reject a name collision, append
and save.  An `.error` result models a return before any save: the stored
registry is unchanged. -/
def CreateTier (oracle : String → Except Unit Bool) (tier : Tier) (s : K8sState) :
    Except MError K8sState :=
  match tier.validate with
  | some e => .error e
  | none =>
    match (if tier.groups.length > 0 then validateGroupsExist oracle tier.groups else none) with
    | some e => .error e
    | none =>
      match Load s with
      | .error e => .error e
      | .ok config =>
        if config.tiers.any (fun t => t.name = tier.name) then .error .tierAlreadyExists
        else Save ⟨config.tiers ++ [tier]⟩ s

/-- C2 counterexample: the tier name `"Free"` violates the name grammar
(uppercase), yet `CreateTier` accepts it and stores the tier — no
validation of the tier name against the grammar exists anywhere in the
create path (`Tier.Validate` only requires the name to be non-empty). -/
theorem createTier_invalid_name_accepted :
    validateKubernetesName "Free" = some MError.invalidKubernetesName ∧
    CreateTier (fun _ => Except.ok false) ⟨"Free", "desc", 0, []⟩ ⟨true, none⟩
      = .ok ⟨true, some [("tiers", marshalTiers [⟨"Free", "desc", 0, []⟩])]⟩ :=
  ⟨by decide, rfl⟩

/-- C2 amended: `CreateTier` applies no grammar check to the tier name.  A
create call whose name is non-empty — whether or not it satisfies the name
grammar — with a non-empty description, a non-negative level, groups that
pass syntax validation and the cluster existence check, and a name that
does not collide with a stored tier, succeeds and appends the tier to the
registry. -/
theorem createTier_no_name_grammar_check (oracle : String → Except Unit Bool)
    (tier : Tier) (s : K8sState) (config : TierConfig)
    (hname : tier.name ≠ "") (hdesc : tier.description ≠ "")
    (hlevel : 0 ≤ tier.level)
    (hgroups : validateGroupNames tier.groups = none)
    (hexist : validateGroupsExist oracle tier.groups = none)
    (hload : Load s = .ok config)
    (hcol : config.tiers.any (fun t => t.name = tier.name) = false) :
    CreateTier oracle tier s = Save ⟨config.tiers ++ [tier]⟩ s ∧
    (∀ s2, CreateTier oracle tier s = .ok s2 → Load s2 = .ok ⟨config.tiers ++ [tier]⟩) := by
  have hv : tier.validate = none := by
    unfold Tier.validate
    rw [if_neg hname, if_neg hdesc, if_neg (by omega)]
    exact hgroups
  have hg : (if tier.groups.length > 0 then validateGroupsExist oracle tier.groups else none)
      = none := by
    split_ifs
    · exact hexist
    · rfl
  have heq : CreateTier oracle tier s = Save ⟨config.tiers ++ [tier]⟩ s := by
    unfold CreateTier
    rw [hv, hg, hload]
    simp [hcol]
  refine ⟨heq, ?_⟩
  intro s2 h2
  rw [heq] at h2
  exact load_after_save _ s s2 h2

/-- Witness for C2's amended theorem: a grammar-invalid uppercase name is
created and then read back from the registry. -/
theorem createTier_no_name_grammar_check_witness :
    CreateTier (fun _ => Except.ok true) ⟨"BadName", "d", 0, ["grp"]⟩ ⟨true, none⟩
      = Save ⟨[⟨"BadName", "d", 0, ["grp"]⟩]⟩ ⟨true, none⟩ ∧
    Load ⟨true, some [("tiers", marshalTiers [⟨"BadName", "d", 0, ["grp"]⟩])]⟩
      = .ok ⟨[⟨"BadName", "d", 0, ["grp"]⟩]⟩ := by
  have h := createTier_no_name_grammar_check (fun _ => Except.ok true)
    ⟨"BadName", "d", 0, ["grp"]⟩ ⟨true, none⟩ ⟨[]⟩
    (by decide) (by decide) (by decide) (by decide) (by decide) rfl rfl
  exact ⟨h.1, h.2 _ rfl⟩

/-- The update payload of `UpdateTier`: the `models.Tier` value bound from
the request body, in which the Go `Groups` slice may be nil (`none`, field
absent) or present (`some`, including an explicit empty list). -/
structure TierUpdate where
  name : String
  description : String
  level : Int
  groups : Option (List String)
  deriving DecidableEq, Repr

/-- The description/level merge of `UpdateTier`: apply the description when
non-empty, then the level when non-negative. -/
def mergeBase (updates : TierUpdate) (t : Tier) : Tier :=
  let t1 := if updates.description ≠ "" then { t with description := updates.description } else t
  if 0 ≤ updates.level then { t1 with level := updates.level } else t1

/-- The body of `UpdateTier`'s update branch for the matched tier: apply
description and level merges, replace groups when the field is present
(after validating syntax and cluster existence of every entry), then
re-validate the merged tier. -/
def mergeTier (oracle : String → Except Unit Bool) (updates : TierUpdate) (t : Tier) :
    Except MError Tier :=
  match updates.groups with
  | none =>
    match (mergeBase updates t).validate with
    | some e => .error e
    | none => .ok (mergeBase updates t)
  | some gs =>
    match validateGroupNames gs with
    | some e => .error e
    | none =>
      match validateGroupsExist oracle gs with
      | some e => .error e
      | none =>
        match { mergeBase updates t with groups := gs }.validate with
        | some e => .error e
        | none => .ok { mergeBase updates t with groups := gs }

/-- The `for i := range config.Tiers` loop of `UpdateTier`: find the first
tier with the requested name; reject a rename attempt with
`tierNameImmutable`; otherwise merge.  `.ok none` models `found == false`. -/
def updateLoop (oracle : String → Except Unit Bool) (n : String) (updates : TierUpdate) :
    List Tier → Except MError (Option (List Tier))
  | [] => .ok none
  | t :: rest =>
    if t.name = n then
      if updates.name ≠ "" ∧ updates.name ≠ n then .error .tierNameImmutable
      else
        match mergeTier oracle updates t with
        | .error e => .error e
        | .ok t2 => .ok (some (t2 :: rest))
    else
      match updateLoop oracle n updates rest with
      | .error e => .error e
      | .ok none => .ok none
      | .ok (some l) => .ok (some (t :: l))

/-- Model of `TierService.UpdateTier`: load, find and merge, save.  An `.error`
result models a return before the save: no stored field changes. -/
def UpdateTier (oracle : String → Except Unit Bool) (n : String) (updates : TierUpdate)
    (s : K8sState) : Except MError K8sState :=
  match Load s with
  | .error e => .error e
  | .ok config =>
    match updateLoop oracle n updates config.tiers with
    | .error e => .error e
    | .ok none => .error .tierNotFound
    | .ok (some tiers2) => Save ⟨tiers2⟩ s

theorem updateLoop_immutable (oracle : String → Except Unit Bool) (n : String)
    (updates : TierUpdate) (hne : updates.name ≠ "") (hne2 : updates.name ≠ n) :
    ∀ l : List Tier, l.any (fun t => t.name = n) = true →
      updateLoop oracle n updates l = .error .tierNameImmutable := by
  intro l
  induction l with
  | nil => intro h; simp at h
  | cons t rest ih =>
    intro h
    by_cases ht : t.name = n
    · simp only [updateLoop, if_pos ht]
      rw [if_pos ⟨hne, hne2⟩]
    · simp only [List.any_cons, Bool.or_eq_true, decide_eq_true_eq] at h
      rcases h with h | h
      · exact absurd h ht
      · simp only [updateLoop, if_neg ht, ih (by simpa using h)]

/-- C4: for a stored tier named `n`, an update whose body name is non-empty
and different from `n` fails with the immutability error, whatever the
other fields contain.  The `.error` result is produced before any save, so
no stored tier field changes. -/
theorem updateTier_immutable (oracle : String → Except Unit Bool) (n : String)
    (updates : TierUpdate) (s : K8sState) (config : TierConfig)
    (hload : Load s = .ok config)
    (hmem : config.tiers.any (fun t => t.name = n) = true)
    (hne : updates.name ≠ "") (hne2 : updates.name ≠ n) :
    UpdateTier oracle n updates s = .error .tierNameImmutable := by
  unfold UpdateTier
  rw [hload]
  have hl := updateLoop_immutable oracle n updates hne hne2 config.tiers hmem
  simp only [hl]

/-- Witness for C4: renaming `free` to `premium` is rejected even though
every other supplied field is valid. -/
theorem updateTier_immutable_witness :
    UpdateTier (fun _ => Except.ok true) "free" ⟨"premium", "New desc", 2, none⟩
      ⟨true, some [("tiers", marshalTiers [⟨"free", "Free tier", 1, []⟩])]⟩
      = .error .tierNameImmutable :=
  updateTier_immutable (fun _ => Except.ok true) "free" ⟨"premium", "New desc", 2, none⟩
    ⟨true, some [("tiers", marshalTiers [⟨"free", "Free tier", 1, []⟩])]⟩
    ⟨[⟨"free", "Free tier", 1, []⟩]⟩ (by decide) (by decide) (by decide) (by decide)

theorem mergeBase_fields (updates : TierUpdate) (t : Tier) :
    (mergeBase updates t).name = t.name ∧
    (mergeBase updates t).description
      = (if updates.description ≠ "" then updates.description else t.description) ∧
    (mergeBase updates t).level = (if 0 ≤ updates.level then updates.level else t.level) ∧
    (mergeBase updates t).groups = t.groups := by
  unfold mergeBase
  by_cases h1 : updates.description ≠ "" <;> by_cases h2 : 0 ≤ updates.level <;>
    simp [h1, h2]

theorem mergeTier_ok (oracle : String → Except Unit Bool) (updates : TierUpdate)
    (t t2 : Tier) (h : mergeTier oracle updates t = .ok t2) :
    t2.name = t.name ∧
    t2.description = (if updates.description ≠ "" then updates.description else t.description) ∧
    t2.level = (if 0 ≤ updates.level then updates.level else t.level) ∧
    t2.groups = (match updates.groups with | some gs => gs | none => t.groups) ∧
    (∀ gs, updates.groups = some gs →
      validateGroupNames gs = none ∧ validateGroupsExist oracle gs = none) := by
  obtain ⟨f1, f2, f3, f4⟩ := mergeBase_fields updates t
  unfold mergeTier at h
  cases hg : updates.groups with
  | none =>
    rw [hg] at h
    simp only [] at h
    cases hv : (mergeBase updates t).validate with
    | some e => rw [hv] at h; exact absurd h (by simp)
    | none =>
      rw [hv] at h
      have ht2 : t2 = mergeBase updates t := by injection h with h1; exact h1.symm
      subst ht2
      exact ⟨f1, f2, f3, f4, fun gs hgs => absurd hgs (by simp [hg])⟩
  | some gs =>
    rw [hg] at h
    simp only [] at h
    cases hn : validateGroupNames gs with
    | some e => rw [hn] at h; exact absurd h (by simp)
    | none =>
      rw [hn] at h
      cases he : validateGroupsExist oracle gs with
      | some e => rw [he] at h; exact absurd h (by simp)
      | none =>
        rw [he] at h
        cases hv : Tier.validate { mergeBase updates t with groups := gs } with
        | some e => rw [hv] at h; exact absurd h (by simp)
        | none =>
          rw [hv] at h
          have ht2 : t2 = { mergeBase updates t with groups := gs } := by
            injection h with h1; exact h1.symm
          subst ht2
          refine ⟨f1, f2, f3, rfl, ?_⟩
          rintro gs2 hgs2
          injection hgs2 with h2
          subst h2
          exact ⟨hn, he⟩

theorem updateLoop_found (oracle : String → Except Unit Bool) (n : String)
    (updates : TierUpdate) (himm : ¬(updates.name ≠ "" ∧ updates.name ≠ n)) :
    ∀ (pre : List Tier) (t : Tier) (post : List Tier),
      (∀ u ∈ pre, u.name ≠ n) → t.name = n →
      updateLoop oracle n updates (pre ++ t :: post) =
        match mergeTier oracle updates t with
        | .error e => .error e
        | .ok t2 => .ok (some (pre ++ t2 :: post)) := by
  intro pre
  induction pre with
  | nil =>
    intro t post _ ht
    simp only [List.nil_append, updateLoop, if_pos ht, if_neg himm]
  | cons u pre2 ih =>
    intro t post hpre ht
    have hu : u.name ≠ n := hpre u (by simp)
    simp only [List.cons_append, updateLoop, if_neg hu, List.append_eq]
    rw [ih t post (fun v hv => hpre v (by simp [hv])) ht]
    cases mergeTier oracle updates t <;> simp [List.cons_append]

/-- C5: for an existing tier, a successful update applies exactly the
supplied fields: an empty supplied description leaves the stored one, a
negative supplied level leaves the stored one (the level is overwritten
exactly when the supplied value is non-negative), and a present groups
field — empty list included — fully replaces the stored group list, every
new entry having passed syntax validation and the cluster existence
check. -/
theorem updateTier_appliesSupplied (oracle : String → Except Unit Bool) (n : String)
    (updates : TierUpdate) (s : K8sState) (config : TierConfig) (s2 : K8sState)
    (pre : List Tier) (t : Tier) (post : List Tier)
    (hsplit : config.tiers = pre ++ t :: post)
    (hpre : ∀ u ∈ pre, u.name ≠ n)
    (ht : t.name = n)
    (himm : updates.name = "" ∨ updates.name = n)
    (hload : Load s = .ok config)
    (hupd : UpdateTier oracle n updates s = .ok s2) :
    Load s2 = .ok ⟨pre ++
      { name := t.name,
        description := if updates.description ≠ "" then updates.description else t.description,
        level := if 0 ≤ updates.level then updates.level else t.level,
        groups := match updates.groups with | some gs => gs | none => t.groups } :: post⟩ ∧
    (∀ gs, updates.groups = some gs →
      validateGroupNames gs = none ∧ validateGroupsExist oracle gs = none) := by
  have himm2 : ¬(updates.name ≠ "" ∧ updates.name ≠ n) := by
    rcases himm with h | h <;> simp [h]
  have hl := updateLoop_found oracle n updates himm2 pre t post hpre ht
  cases hm : mergeTier oracle updates t with
  | error e =>
    exfalso
    rw [hm] at hl
    have hu : UpdateTier oracle n updates s = .error e := by
      unfold UpdateTier
      rw [hload]
      simp only [hsplit, hl]
    rw [hu] at hupd
    exact absurd hupd (by simp)
  | ok t2 =>
    rw [hm] at hl
    have hu : UpdateTier oracle n updates s = Save ⟨pre ++ t2 :: post⟩ s := by
      unfold UpdateTier
      rw [hload]
      simp only [hsplit, hl]
    rw [hu] at hupd
    have hload2 := load_after_save _ s s2 hupd
    obtain ⟨f1, f2, f3, f4, f5⟩ := mergeTier_ok oracle updates t t2 hm
    refine ⟨?_, f5⟩
    have ht2 : t2 = ⟨t.name,
        (if updates.description ≠ "" then updates.description else t.description),
        (if 0 ≤ updates.level then updates.level else t.level),
        (match updates.groups with | some gs => gs | none => t.groups)⟩ := by
      cases t2 with
      | mk a b c d =>
        simp only [] at f1 f2 f3 f4
        rw [f1, f2, f3, f4]
    rw [← ht2]
    exact hload2

/-- Witness for C5: updating `free` with an empty description, the negative
level sentinel and an explicit empty group list keeps the description and
level and clears the groups. -/
theorem updateTier_appliesSupplied_witness :
    Load ⟨true, some [("tiers", marshalTiers [⟨"free", "old", 1, []⟩])]⟩
      = .ok ⟨[⟨"free", "old", 1, []⟩]⟩ ∧
    validateGroupNames [] = none ∧ validateGroupsExist (fun _ => Except.ok true) [] = none := by
  have h := updateTier_appliesSupplied (fun _ => Except.ok true) "free" ⟨"", "", -1, some []⟩
    ⟨true, some [("tiers", marshalTiers [⟨"free", "old", 1, ["system:authenticated"]⟩])]⟩
    ⟨[⟨"free", "old", 1, ["system:authenticated"]⟩]⟩
    ⟨true, some [("tiers", marshalTiers [⟨"free", "old", 1, []⟩])]⟩
    [] ⟨"free", "old", 1, ["system:authenticated"]⟩ []
    rfl (by simp) rfl (Or.inl rfl) (by decide) (by decide)
  exact ⟨by simpa using h.1, h.2 [] rfl⟩

/-! ## Per-user tier resolution (`TierService.GetTiersForUser`) -/

/-- The inner loop of `GetTiersForUser`: the subset of a tier's groups the
user belongs to, in tier-group order (the user's groups are consulted as a
set, via a membership map in Go). -/
def matchingGroups (userGroups : List String) (t : Tier) : List String :=
  t.groups.filter (fun g => userGroups.contains g)

/-- The collection loop of `GetTiersForUser`: one `UserTier` per stored tier
with a non-empty group intersection, in registry order. -/
def collectUserTiers (userGroups : List String) : List Tier → List UserTier
  | [] => []
  | t :: rest =>
    let mg := matchingGroups userGroups t
    if mg.length > 0 then
      ⟨t.name, t.description, t.level, mg⟩ :: collectUserTiers userGroups rest
    else collectUserTiers userGroups rest

/-- One pass of the bubble sort in `GetTiersForUser`, written with the
element currently being carried forward: compare it with the next element
and swap on strictly greater level, exactly the Go `if a[j].Level >
a[j+1].Level` body.  The Go inner loop stops short of the already-settled
tail; the comparisons it skips can never swap, so the full pass is
extensionally identical. -/
def bubbleAux (a : UserTier) : List UserTier → List UserTier
  | [] => [a]
  | b :: rest =>
    if a.level > b.level then b :: bubbleAux a rest
    else a :: bubbleAux b rest

/-- One full bubble pass. -/
def bubblePass : List UserTier → List UserTier
  | [] => []
  | a :: rest => bubbleAux a rest

/-- Iterated bubble passes. -/
def bubbleIter : Nat → List UserTier → List UserTier
  | 0, l => l
  | n + 1, l => bubbleIter n (bubblePass l)

/-- The sort at the end of `GetTiersForUser`: `len - 1` bubble passes. -/
def sortUserTiers (l : List UserTier) : List UserTier := bubbleIter (l.length - 1) l

/-- Model of `TierService.GetTiersForUser` after the user's group memberships have
been resolved.  The resolver (`storage.GetUserGroups`) is external code not
present in the repository source; the claim conditions on its success, so
the resolved group list is a parameter here, and its failure path (which
propagates an error and emits no tier list) is outside this function. -/
def GetTiersForUser (username : String) (userGroups : List String) (config : TierConfig) :
    Except MError (List UserTier) :=
  if username = "" then .error .userRequired
  else .ok (sortUserTiers (collectUserTiers userGroups config.tiers))

theorem bubbleAux_perm (a : UserTier) :
    ∀ l : List UserTier, List.Perm (bubbleAux a l) (a :: l) := by
  intro l
  induction l generalizing a with
  | nil => simp [bubbleAux]
  | cons b rest ih =>
    by_cases h : a.level > b.level
    · simp only [bubbleAux, if_pos h]
      exact (List.Perm.cons b (ih a)).trans (List.Perm.swap a b rest)
    · simp only [bubbleAux, if_neg h]
      exact List.Perm.cons a (ih b)

theorem bubblePass_perm : ∀ l : List UserTier, List.Perm (bubblePass l) l := by
  intro l
  cases l with
  | nil => simp [bubblePass]
  | cons a rest => exact bubbleAux_perm a rest

theorem bubbleIter_perm : ∀ (n : Nat) (l : List UserTier), List.Perm (bubbleIter n l) l := by
  intro n
  induction n with
  | zero => intro l; simp [bubbleIter]
  | succ k ih =>
    intro l
    simp only [bubbleIter]
    exact (ih (bubblePass l)).trans (bubblePass_perm l)

theorem bubbleAux_filter_level (L : Int) :
    ∀ (l : List UserTier) (a : UserTier),
      (bubbleAux a l).filter (fun t => t.level == L)
        = (a :: l).filter (fun t => t.level == L) := by
  intro l
  induction l with
  | nil => intro a; simp [bubbleAux]
  | cons b rest ih =>
    intro a
    by_cases h : a.level > b.level
    · simp only [bubbleAux, if_pos h]
      by_cases ha : (a.level == L) = true <;> by_cases hb : (b.level == L) = true
      · exfalso
        have ha2 : a.level = L := by simpa using ha
        have hb2 : b.level = L := by simpa using hb
        omega
      all_goals simp [List.filter_cons, ha, hb, ih a]
    · simp only [bubbleAux, if_neg h]
      simp only [List.filter_cons]
      by_cases ha : (a.level == L) = true <;> simp [ha, ih b, List.filter_cons]

theorem bubblePass_filter_level (L : Int) :
    ∀ l : List UserTier,
      (bubblePass l).filter (fun t => t.level == L) = l.filter (fun t => t.level == L) := by
  intro l
  cases l with
  | nil => simp [bubblePass]
  | cons a rest => exact bubbleAux_filter_level L rest a

theorem bubbleIter_filter_level (L : Int) (n : Nat) :
    ∀ l : List UserTier,
      (bubbleIter n l).filter (fun t => t.level == L) = l.filter (fun t => t.level == L) := by
  induction n with
  | zero => intro l; simp [bubbleIter]
  | succ k ih =>
    intro l
    simp only [bubbleIter]
    rw [ih (bubblePass l), bubblePass_filter_level L l]

theorem bubbleAux_last_max :
    ∀ (l : List UserTier) (a : UserTier),
      ∃ u m, bubbleAux a l = u ++ [m] ∧ ∀ x ∈ a :: l, x.level ≤ m.level := by
  intro l
  induction l with
  | nil =>
    intro a
    exact ⟨[], a, by simp [bubbleAux], by simp⟩
  | cons b rest ih =>
    intro a
    by_cases h : a.level > b.level
    · obtain ⟨u, m, he, hm⟩ := ih a
      refine ⟨b :: u, m, ?_, ?_⟩
      · simp [bubbleAux, if_pos h, he]
      · intro x hx
        have hma := hm a (by simp)
        rcases List.mem_cons.mp hx with rfl | hx2
        · exact hma
        · rcases List.mem_cons.mp hx2 with rfl | hx3
          · omega
          · exact hm x (by simp [hx3])
    · obtain ⟨u, m, he, hm⟩ := ih b
      refine ⟨a :: u, m, ?_, ?_⟩
      · simp [bubbleAux, if_neg h, he]
      · intro x hx
        have hmb := hm b (by simp)
        rcases List.mem_cons.mp hx with rfl | hx2
        · omega
        · exact hm x hx2

theorem bubblePass_last_max :
    ∀ l : List UserTier, l ≠ [] →
      ∃ u m, bubblePass l = u ++ [m] ∧ ∀ x ∈ l, x.level ≤ m.level := by
  intro l hne
  cases l with
  | nil => exact absurd rfl hne
  | cons a rest => exact bubbleAux_last_max rest a

theorem bubbleAux_append_max :
    ∀ (u : List UserTier) (a m : UserTier), (∀ x ∈ a :: u, x.level ≤ m.level) →
      bubbleAux a (u ++ [m]) = bubbleAux a u ++ [m] := by
  intro u
  induction u with
  | nil =>
    intro a m h
    have ha := h a (by simp)
    simp [bubbleAux, show ¬ a.level > m.level by omega]
  | cons b u2 ih =>
    intro a m h
    by_cases hab : a.level > b.level
    · have hr := ih a m (fun x hx => h x (by
        rcases List.mem_cons.mp hx with rfl | hx2
        · simp
        · simp [hx2]))
      simp only [List.cons_append, bubbleAux, if_pos hab, List.append_eq]
      rw [hr]
    · have hr := ih b m (fun x hx => h x (by
        rcases List.mem_cons.mp hx with rfl | hx2
        · simp
        · simp [hx2]))
      simp only [List.cons_append, bubbleAux, if_neg hab, List.append_eq]
      rw [hr]

theorem bubblePass_append_max :
    ∀ (u : List UserTier) (m : UserTier), (∀ x ∈ u, x.level ≤ m.level) →
      bubblePass (u ++ [m]) = bubblePass u ++ [m] := by
  intro u m h
  cases u with
  | nil => simp [bubblePass, bubbleAux]
  | cons a u2 =>
    show bubbleAux a (u2 ++ [m]) = bubbleAux a u2 ++ [m]
    exact bubbleAux_append_max u2 a m h

theorem bubbleIter_append_max (n : Nat) :
    ∀ (u : List UserTier) (m : UserTier), (∀ x ∈ u, x.level ≤ m.level) →
      bubbleIter n (u ++ [m]) = bubbleIter n u ++ [m] := by
  induction n with
  | zero => intro u m _; simp [bubbleIter]
  | succ k ih =>
    intro u m h
    simp only [bubbleIter]
    rw [bubblePass_append_max u m h]
    exact ih (bubblePass u) m (fun x hx => h x ((bubblePass_perm u).mem_iff.mp hx))

theorem bubbleIter_sorted :
    ∀ (n : Nat) (l : List UserTier), l.length ≤ n + 1 →
      List.Pairwise (fun x y => x.level ≤ y.level) (bubbleIter n l) := by
  intro n
  induction n with
  | zero =>
    intro l h
    cases l with
    | nil => simp [bubbleIter]
    | cons a l2 =>
      cases l2 with
      | nil => simp [bubbleIter]
      | cons b l3 =>
        exfalso
        simp only [List.length_cons] at h
        omega
  | succ k ih =>
    intro l h
    by_cases hnil : l = []
    · subst hnil
      simp only [bubbleIter, bubblePass]
      exact ih [] (by simp)
    · obtain ⟨u, m, he, hm⟩ := bubblePass_last_max l hnil
      simp only [bubbleIter]
      rw [he]
      have hu_le : ∀ x ∈ u, x.level ≤ m.level := by
        intro x hx
        apply hm
        have hx2 : x ∈ u ++ [m] := by simp [hx]
        rw [← he] at hx2
        exact (bubblePass_perm l).mem_iff.mp hx2
      rw [bubbleIter_append_max k u m hu_le]
      have hlen_u : u.length ≤ k + 1 := by
        have h1 : (bubblePass l).length = l.length := (bubblePass_perm l).length_eq
        have h2 : (u ++ [m]).length = l.length := by rw [← he, h1]
        simp only [List.length_append, List.length_cons, List.length_nil] at h2
        omega
      rw [List.pairwise_append]
      refine ⟨ih u hlen_u, by simp, ?_⟩
      intro x hx y hy
      simp only [List.mem_singleton] at hy
      subst hy
      exact hu_le x ((bubbleIter_perm k u).mem_iff.mp hx)

/-- C1: for every username whose memberships resolve and every registry
state, the emitted list is sorted non-decreasing by level, and the sublist
at any fixed level equals the corresponding sublist of the pre-sort
collection, which is in registry order — so equal-level tiers keep their
relative registry order (stable sort). -/
theorem getTiersForUser_sorted (username : String) (userGroups : List String)
    (config : TierConfig) (out : List UserTier)
    (h : GetTiersForUser username userGroups config = .ok out) :
    List.Pairwise (fun a b => a.level ≤ b.level) out ∧
    ∀ L : Int, out.filter (fun t => t.level == L)
      = (collectUserTiers userGroups config.tiers).filter (fun t => t.level == L) := by
  unfold GetTiersForUser at h
  by_cases hu : username = ""
  · rw [if_pos hu] at h
    exact absurd h (by simp)
  · rw [if_neg hu] at h
    injection h with h1
    subst h1
    constructor
    · exact bubbleIter_sorted _ _ (by omega)
    · intro L
      exact bubbleIter_filter_level L _ _

/-- Witness for C1: two level-0 tiers keep registry order below a level-5
tier. -/
theorem getTiersForUser_sorted_witness :
    List.Pairwise (fun a b => a.level ≤ b.level)
      (sortUserTiers (collectUserTiers ["g"]
        [⟨"hi", "d", 5, ["g"]⟩, ⟨"lo1", "d", 0, ["g"]⟩, ⟨"lo2", "d", 0, ["g"]⟩])) ∧
    (sortUserTiers (collectUserTiers ["g"]
        [⟨"hi", "d", 5, ["g"]⟩, ⟨"lo1", "d", 0, ["g"]⟩, ⟨"lo2", "d", 0, ["g"]⟩])).filter
        (fun t => t.level == 0)
      = (collectUserTiers ["g"]
        [⟨"hi", "d", 5, ["g"]⟩, ⟨"lo1", "d", 0, ["g"]⟩, ⟨"lo2", "d", 0, ["g"]⟩]).filter
        (fun t => t.level == 0) := by
  have h := getTiersForUser_sorted "alice" ["g"]
    ⟨[⟨"hi", "d", 5, ["g"]⟩, ⟨"lo1", "d", 0, ["g"]⟩, ⟨"lo2", "d", 0, ["g"]⟩]⟩
    (sortUserTiers (collectUserTiers ["g"]
      [⟨"hi", "d", 5, ["g"]⟩, ⟨"lo1", "d", 0, ["g"]⟩, ⟨"lo2", "d", 0, ["g"]⟩]))
    (by decide)
  exact ⟨h.1, h.2 0⟩

/-! ## Workload tier association (`models/llminferenceservice.go` and the
`storage` LLMInferenceService functions)

The annotation value is a JSON array of strings.  `encoding/json` is
modelled by a concrete encoder/decoder pair over that shape, reusing the
quoted-scalar model. -/

/-- The annotation key `alpha.maas.opendatahub.io/tiers`
(`models.TierAnnotationKey`). -/
def tierAnnKey : String := "alpha.maas.opendatahub.io/tiers"

/-- Items of a non-empty JSON string array, up to the closing bracket. -/
def jsonItemsAux : List String → List Char
  | [] => [']']
  | [g] => quoteChars g.data ++ [']']
  | g :: gs => quoteChars g.data ++ ',' :: jsonItemsAux gs

/-- A JSON array of strings, as emitted by `json.Marshal` for `[]string`. -/
def jsonArrayChars (l : List String) : List Char := '[' :: jsonItemsAux l

/-- Model of `models.FormatTiersAnnotation`: `"[]"` for an empty list, the JSON
encoding otherwise. -/
def formatTiersAnn (tiers : List String) : String :=
  if tiers.length = 0 then "[]" else String.mk (jsonArrayChars tiers)

/-- Parse the items of a JSON string array after the opening bracket
(fuel-bounded; the wrapper passes more fuel than the input length). -/
def parseJsonItemsF : Nat → List Char → Option (List String)
  | 0, _ => none
  | fuel + 1, l =>
    match parseQuoted l with
    | none => none
    | some (s, rest) =>
      match rest with
      | [] => none
      | c :: rest2 =>
        if c = ',' then
          match parseJsonItemsF fuel rest2 with
          | none => none
          | some gs => some (String.mk s :: gs)
        else if c = ']' then
          if rest2 = [] then some [String.mk s] else none
        else none

/-- Decode a whole JSON array of strings. -/
def parseJsonArray (l : List Char) : Option (List String) :=
  match l with
  | [] => none
  | c :: rest =>
    if c = '[' then
      if rest = [']'] then some []
      else parseJsonItemsF (rest.length + 1) rest
    else none

/-- Model of `models.ParseTiersFromAnnotation`: an empty value decodes to an empty
list; otherwise the value must be a JSON array of strings (`none` models
the `json.Unmarshal` error). -/
def parseTiersFromAnn (s : String) : Option (List String) :=
  if s = "" then some [] else parseJsonArray s.data

/-- Model of `models.AddTierToList`: append only when absent (idempotent add). -/
def addTierToList (tiers : List String) (tierName : String) : List String :=
  if tiers.elem tierName then tiers else tiers ++ [tierName]

/-- Model of `models.RemoveTierFromList`: drop the first occurrence; the flag
reports whether it was found. -/
def removeTierFromList : List String → String → List String × Bool
  | [], _ => ([], false)
  | t :: rest, n =>
    if t = n then (rest, true)
    else
      let p := removeTierFromList rest n
      (t :: p.1, p.2)

/-- A workload resource as the association code sees it: its
`metadata.annotations` map (`none` models an absent/nil map). -/
structure Workload where
  annMap : Option (List (String × String))
  deriving DecidableEq, Repr

/-- The Kubernetes objects touched by the association operations: whether
the target namespace exists, and the target workload (`none` when it does
not exist). -/
structure LLMWorld where
  nsExists : Bool
  workload : Option Workload
  deriving DecidableEq, Repr

/-- The workload's annotation value under a key. -/
def getAnn (wl : Workload) (k : String) : Option String :=
  match wl.annMap with
  | none => none
  | some anns => assocGet anns k

/-- Model of `storage.UpdateLLMInferenceServiceAnnotation`: namespace and workload
must exist; the current annotation decodes to the existing tier list
(missing/empty as `[]`, and a malformed value is logged and replaced by
`[]`, i.e. start fresh); the tier is added idempotently, re-encoded and
written back. -/
def updateLLMAnn (tierName : String) (w : LLMWorld) : Except MError Workload :=
  if ¬ w.nsExists then .error .namespaceNotFound
  else
    match w.workload with
    | none => .error .llmServiceNotFound
    | some wl =>
      let anns := wl.annMap.getD []
      let existingTiers :=
        match assocGet anns tierAnnKey with
        | some v =>
          if v ≠ "" then
            match parseTiersFromAnn v with
            | some l => l
            | none => []
          else []
        | none => []
      let updated := addTierToList existingTiers tierName
      .ok ⟨some (assocSet anns tierAnnKey (formatTiersAnn updated))⟩

/-- Model of `storage.RemoveLLMInferenceServiceAnnotation`: namespace and workload
must exist; fail `tierNotFoundInAnn` when the annotation map or key is
absent, the value is empty, or the decoded list does not contain the tier;
otherwise remove the tier, re-encode and write back. -/
def removeLLMAnn (tierName : String) (w : LLMWorld) : Except MError Workload :=
  if ¬ w.nsExists then .error .namespaceNotFound
  else
    match w.workload with
    | none => .error .llmServiceNotFound
    | some wl =>
      match wl.annMap with
      | none => .error .tierNotFoundInAnn
      | some anns =>
        match assocGet anns tierAnnKey with
        | none => .error .tierNotFoundInAnn
        | some v =>
          if v = "" then .error .tierNotFoundInAnn
          else
            match parseTiersFromAnn v with
            | none => .error .parseFailure
            | some existingTiers =>
              let p := removeTierFromList existingTiers tierName
              if p.2 = false then .error .tierNotFoundInAnn
              else .ok ⟨some (assocSet anns tierAnnKey (formatTiersAnn p.1))⟩

/-- Model of `LLMInferenceServiceService.RemoveTierFromLLMInferenceService`:
validates the three parameters non-empty, then calls the storage removal —
deliberately without consulting the tier registry (the source comment:
stale references may be cleaned up).  The function takes no registry
argument at all.  Go wraps the storage error with a message prefix via
`%w`, preserving its identity for `errors.Is`; the model keeps the error
kind unchanged. -/
def RemoveTierFromLLMInferenceService (ns0 nm tierName : String) (w : LLMWorld) :
    Except MError Workload :=
  if ns0 = "" then .error .namespaceRequired
  else if nm = "" then .error .nameRequired
  else if tierName = "" then .error .tierNameRequired
  else removeLLMAnn tierName w

theorem jsonItemsAux_length_ge : ∀ gs : List String, gs.length ≤ (jsonItemsAux gs).length
  | [] => by simp [jsonItemsAux]
  | [g] => by
    simp only [jsonItemsAux, List.length_append, List.length_cons, List.length_nil,
      quoteChars, List.length_singleton]
    omega
  | g :: g2 :: gs2 => by
    have ih := jsonItemsAux_length_ge (g2 :: gs2)
    simp only [List.length_cons] at ih
    simp only [jsonItemsAux, List.length_append, List.length_cons, quoteChars]
    omega

theorem jsonItemsAux_head (g : String) (gs : List String) :
    ∃ r, jsonItemsAux (g :: gs) = '"' :: r := by
  cases gs with
  | nil => exact ⟨_, rfl⟩
  | cons g2 gs2 => exact ⟨_, rfl⟩

theorem parseJsonItemsF_emit :
    ∀ (gs : List String) (g : String) (fuel : Nat), gs.length + 1 ≤ fuel →
      parseJsonItemsF fuel (jsonItemsAux (g :: gs)) = some (g :: gs) := by
  intro gs
  induction gs with
  | nil =>
    intro g fuel hf
    match fuel, hf with
    | f + 1, _ =>
      simp [jsonItemsAux, parseJsonItemsF, parseQuoted_quoteChars, string_mk_data]
  | cons g2 gs2 ih =>
    intro g fuel hf
    match fuel, hf with
    | f + 1, hf =>
      have hih := ih g2 f (by simp only [List.length_cons] at hf ⊢; omega)
      simp only [jsonItemsAux]
      simp [parseJsonItemsF, parseQuoted_quoteChars, hih, string_mk_data]

theorem formatTiersAnn_ne_empty (l : List String) : formatTiersAnn l ≠ "" := by
  cases l with
  | nil =>
    show ("[]" : String) ≠ ""
    decide
  | cons g gs =>
    have hf : formatTiersAnn (g :: gs) = String.mk (jsonArrayChars (g :: gs)) := by
      simp [formatTiersAnn]
    rw [hf, string_ne_empty_iff]
    simp [jsonArrayChars]

/-- Round trip of the JSON model: decoding an encoded tier-name list
returns exactly that list. -/
theorem parse_format_roundtrip (l : List String) :
    parseTiersFromAnn (formatTiersAnn l) = some l := by
  cases l with
  | nil => decide
  | cons g gs =>
    have hf : formatTiersAnn (g :: gs) = String.mk (jsonArrayChars (g :: gs)) := by
      simp [formatTiersAnn]
    unfold parseTiersFromAnn
    rw [if_neg (formatTiersAnn_ne_empty (g :: gs)), hf]
    show parseJsonArray ('[' :: jsonItemsAux (g :: gs)) = some (g :: gs)
    obtain ⟨r, hr⟩ := jsonItemsAux_head g gs
    simp only [parseJsonArray, if_true]
    rw [if_neg (by
      rw [hr]
      intro hcon
      injection hcon with h1 _
      exact absurd h1 (by decide))]
    refine parseJsonItemsF_emit gs g _ ?_
    have := jsonItemsAux_length_ge (g :: gs)
    simp only [List.length_cons] at this ⊢
    omega

theorem mem_addTierToList (l : List String) (t : String) : t ∈ addTierToList l t := by
  unfold addTierToList
  by_cases h : l.elem t
  · rw [if_pos h]
    exact List.mem_of_elem_eq_true h
  · rw [if_neg h]
    simp

theorem addTierToList_of_mem (l : List String) (t : String) (h : t ∈ l) :
    addTierToList l t = l := by
  unfold addTierToList
  rw [if_pos (List.elem_eq_true_of_mem h)]

theorem removeTierFromList_found_iff :
    ∀ (l : List String) (n : String), (removeTierFromList l n).2 = true ↔ n ∈ l := by
  intro l n
  induction l with
  | nil => simp [removeTierFromList]
  | cons t rest ih =>
    by_cases ht : t = n
    · subst ht
      simp [removeTierFromList]
    · simp only [removeTierFromList, if_neg ht]
      simp only [List.mem_cons]
      constructor
      · intro h
        exact Or.inr (ih.mp h)
      · rintro (rfl | h)
        · exact absurd rfl ht
        · exact ih.mpr h

theorem assocSet_assocSet :
    ∀ (m : List (String × String)) (k v : String),
      assocSet (assocSet m k v) k v = assocSet m k v := by
  intro m k v
  induction m with
  | nil => simp [assocSet]
  | cons p rest ih =>
    obtain ⟨k0, v0⟩ := p
    by_cases hk : k0 = k
    · simp [assocSet, hk]
    · simp [assocSet, hk, ih]

/-- C7: annotating twice with the same (namespace, name, tier) leaves the
annotation unchanged after the second call: a tier already present in the
decoded list is never appended again, so the decoded list gains no
duplicate and the workload written by the second call equals the first. -/
theorem annotate_idempotent (tierName : String) (w : LLMWorld) (w1 : Workload)
    (h : updateLLMAnn tierName w = .ok w1) :
    updateLLMAnn tierName ⟨w.nsExists, some w1⟩ = .ok w1 ∧
    (∀ l : List String, tierName ∈ l → addTierToList l tierName = l) := by
  refine ⟨?_, fun l hl => addTierToList_of_mem l tierName hl⟩
  unfold updateLLMAnn at h
  by_cases hns : w.nsExists = true
  · rw [if_neg (by simp [hns])] at h
    cases hw : w.workload with
    | none => rw [hw] at h; exact absurd h (by simp)
    | some wl =>
      rw [hw] at h
      simp only [] at h
      have hw1 : w1 = ⟨some (assocSet (wl.annMap.getD []) tierAnnKey
          (formatTiersAnn (addTierToList
            (match assocGet (wl.annMap.getD []) tierAnnKey with
             | some v =>
               if v ≠ "" then
                 match parseTiersFromAnn v with
                 | some l => l
                 | none => []
               else []
             | none => []) tierName)))⟩ := by
        injection h with h1
        exact h1.symm
      subst hw1
      unfold updateLLMAnn
      rw [if_neg (by simp [hns])]
      simp only [Option.getD_some, assocGet_assocSet]
      rw [if_pos (formatTiersAnn_ne_empty _)]
      simp only [parse_format_roundtrip]
      rw [addTierToList_of_mem _ tierName (mem_addTierToList _ tierName), assocSet_assocSet]
  · rw [if_pos (by simp [hns])] at h
    exact absurd h (by simp)

/-- Witness for C7: the second annotate call returns the workload written
by the first, unchanged. -/
theorem annotate_idempotent_witness :
    updateLLMAnn "free" ⟨true, some ⟨some [(tierAnnKey, formatTiersAnn ["free"])]⟩⟩
      = .ok ⟨some [(tierAnnKey, formatTiersAnn ["free"])]⟩ ∧
    addTierToList ["free"] "free" = ["free"] := by
  have h := annotate_idempotent "free" ⟨true, some ⟨none⟩⟩
    ⟨some [(tierAnnKey, formatTiersAnn ["free"])]⟩ (by decide)
  exact ⟨h.1, h.2 ["free"] (by simp)⟩

/-- C8: `removeTier` takes no registry argument (its success never depends
on the tier still existing in the registry), and under an existing
namespace and workload it fails with `tierNotFoundInAnn` exactly when the
tier annotation is absent, empty, or decodes to a list not containing the
tier; when the decoded list does contain the tier, it succeeds and writes
back the list with that tier removed.  An `.error` result models a return
before the workload update. -/
theorem removeTier_no_registry_spec (ns0 nm tierName : String) (w : LLMWorld) (wl : Workload)
    (hns0 : ns0 ≠ "") (hnm : nm ≠ "") (htn : tierName ≠ "")
    (hnse : w.nsExists = true) (hwl : w.workload = some wl) :
    (RemoveTierFromLLMInferenceService ns0 nm tierName w
        = .error .tierNotFoundInAnn ↔
      (getAnn wl tierAnnKey = none ∨ getAnn wl tierAnnKey = some "" ∨
       (∃ v l, getAnn wl tierAnnKey = some v ∧ v ≠ "" ∧
         parseTiersFromAnn v = some l ∧ tierName ∉ l))) ∧
    (∀ anns v l, wl.annMap = some anns → assocGet anns tierAnnKey = some v → v ≠ "" →
      parseTiersFromAnn v = some l → tierName ∈ l →
      RemoveTierFromLLMInferenceService ns0 nm tierName w
        = .ok ⟨some (assocSet anns tierAnnKey
            (formatTiersAnn (removeTierFromList l tierName).1))⟩) := by
  have hred : RemoveTierFromLLMInferenceService ns0 nm tierName w
      = removeLLMAnn tierName w := by
    unfold RemoveTierFromLLMInferenceService
    rw [if_neg hns0, if_neg hnm, if_neg htn]
  constructor
  · rw [hred]
    unfold removeLLMAnn
    rw [if_neg (by simp [hnse]), hwl]
    simp only []
    cases ham : wl.annMap with
    | none =>
      constructor
      · intro _
        left
        simp [getAnn, ham]
      · intro _
        rfl
    | some anns =>
      have hga : getAnn wl tierAnnKey = assocGet anns tierAnnKey := by
        simp [getAnn, ham]
      simp only []
      cases hget : assocGet anns tierAnnKey with
      | none =>
        constructor
        · intro _
          left
          rw [hga, hget]
        · intro _
          rfl
      | some v =>
        simp only []
        by_cases hv : v = ""
        · subst hv
          rw [if_pos rfl]
          constructor
          · intro _
            right
            left
            rw [hga, hget]
          · intro _
            rfl
        · rw [if_neg hv]
          cases hp : parseTiersFromAnn v with
          | none =>
            constructor
            · intro hc
              exact absurd hc (by simp)
            · rintro (hc | hc | ⟨v2, l2, hc1, hc2, hc3, hc4⟩)
              · rw [hga, hget] at hc
                exact absurd hc (by simp)
              · rw [hga, hget] at hc
                injection hc with h1
                exact absurd h1 hv
              · rw [hga, hget] at hc1
                injection hc1 with h1
                subst h1
                rw [hp] at hc3
                exact absurd hc3 (by simp)
          | some l =>
            simp only []
            by_cases hm : tierName ∈ l
            · have hf : (removeTierFromList l tierName).2 = true :=
                (removeTierFromList_found_iff l tierName).mpr hm
              rw [if_neg (by simp [hf])]
              constructor
              · intro hc
                exact absurd hc (by simp)
              · rintro (hc | hc | ⟨v2, l2, hc1, hc2, hc3, hc4⟩)
                · rw [hga, hget] at hc
                  exact absurd hc (by simp)
                · rw [hga, hget] at hc
                  injection hc with h1
                  exact absurd h1 hv
                · rw [hga, hget] at hc1
                  injection hc1 with h1
                  subst h1
                  rw [hp] at hc3
                  injection hc3 with h2
                  subst h2
                  exact absurd hm hc4
            · have hf : (removeTierFromList l tierName).2 = false := by
                cases hb : (removeTierFromList l tierName).2 with
                | false => rfl
                | true => exact absurd ((removeTierFromList_found_iff l tierName).mp hb) hm
              rw [if_pos hf]
              constructor
              · intro _
                right
                right
                exact ⟨v, l, by rw [hga, hget], hv, hp, hm⟩
              · intro _
                rfl
  · intro anns v l ham hget hv hp hm
    rw [hred]
    unfold removeLLMAnn
    rw [if_neg (by simp [hnse]), hwl]
    simp only [ham, hget, hp]
    rw [if_neg hv]
    have hf : (removeTierFromList l tierName).2 = true :=
      (removeTierFromList_found_iff l tierName).mpr hm
    rw [if_neg (by simp [hf])]

/-- Witness for C8: removal fails on a workload annotated only with another
tier, and succeeds — with no registry in sight — on a workload annotated
with the tier. -/
theorem removeTier_no_registry_spec_witness :
    RemoveTierFromLLMInferenceService "n" "m" "free"
      ⟨true, some ⟨some [(tierAnnKey, formatTiersAnn ["other"])]⟩⟩
      = .error .tierNotFoundInAnn ∧
    RemoveTierFromLLMInferenceService "n" "m" "free"
      ⟨true, some ⟨some [(tierAnnKey, formatTiersAnn ["free"])]⟩⟩
      = .ok ⟨some (assocSet [(tierAnnKey, formatTiersAnn ["free"])] tierAnnKey
          (formatTiersAnn (removeTierFromList ["free"] "free").1))⟩ := by
  constructor
  · exact (removeTier_no_registry_spec "n" "m" "free"
      ⟨true, some ⟨some [(tierAnnKey, formatTiersAnn ["other"])]⟩⟩
      ⟨some [(tierAnnKey, formatTiersAnn ["other"])]⟩
      (by decide) (by decide) (by decide) rfl rfl).1.mpr
      (Or.inr (Or.inr ⟨formatTiersAnn ["other"], ["other"],
        by decide, by decide, by decide, by decide⟩))
  · exact (removeTier_no_registry_spec "n" "m" "free"
      ⟨true, some ⟨some [(tierAnnKey, formatTiersAnn ["free"])]⟩⟩
      ⟨some [(tierAnnKey, formatTiersAnn ["free"])]⟩
      (by decide) (by decide) (by decide) rfl rfl).2
      [(tierAnnKey, formatTiersAnn ["free"])] (formatTiersAnn ["free"]) ["free"]
      rfl (by decide) (by decide) (by decide) (by simp)

/-- C10: when the existing annotation value is non-empty and not a valid
JSON array of strings, annotate does not fail: it discards the malformed
value and writes an annotation whose decoded list is exactly the one tier
being added, losing whatever the malformed value encoded. -/
theorem annotate_malformed_overwrites (tierName : String) (w : LLMWorld) (wl : Workload)
    (anns : List (String × String)) (v : String)
    (hns : w.nsExists = true) (hwl : w.workload = some wl)
    (ham : wl.annMap = some anns)
    (hv : assocGet anns tierAnnKey = some v) (hne : v ≠ "")
    (hbad : parseTiersFromAnn v = none) :
    updateLLMAnn tierName w
      = .ok ⟨some (assocSet anns tierAnnKey (formatTiersAnn [tierName]))⟩ ∧
    parseTiersFromAnn (formatTiersAnn [tierName]) = some [tierName] := by
  refine ⟨?_, parse_format_roundtrip [tierName]⟩
  unfold updateLLMAnn
  rw [if_neg (by simp [hns]), hwl]
  simp only [ham, Option.getD_some, hv]
  rw [if_pos hne]
  simp only [hbad]
  simp [addTierToList]

/-- Witness for C10: a `"not-json"` annotation value is discarded and
replaced by the singleton list of the added tier. -/
theorem annotate_malformed_overwrites_witness :
    updateLLMAnn "free" ⟨true, some ⟨some [(tierAnnKey, "not-json")]⟩⟩
      = .ok ⟨some (assocSet [(tierAnnKey, "not-json")] tierAnnKey (formatTiersAnn ["free"]))⟩ ∧
    parseTiersFromAnn (formatTiersAnn ["free"]) = some ["free"] :=
  annotate_malformed_overwrites "free" ⟨true, some ⟨some [(tierAnnKey, "not-json")]⟩⟩
    ⟨some [(tierAnnKey, "not-json")]⟩ [(tierAnnKey, "not-json")] "not-json"
    rfl rfl rfl (by decide) (by decide) (by decide)

end MaasToolbox
